import Mathlib

/-!
Verification of the staged-pipeline execution engine of lsst/pipette
(src/python/lsst/pipette/engine/stage.py) against its natural-language
specification.

The engine threads a "clipboard" (a Python dict from string keys to
arbitrary values) through a tree of stages.  We embed the clipboard as an
insertion-ordered association list of key/value pairs with Python-dict
update semantics, and each stage as a record of its name, declared
`requires` and `provides` key sets, and its `run` body.  A body may
return `none` (Python `return None`), a delta dict, or fail with an
error; all fallible operations return `Except Err`.
-/

namespace Pipette

abbrev Key := String

/-- Clipboard values.  The engine treats values opaquely except for the
sequences an IterateStage loops over; we model scalars as naturals and
sequences as lists of values (Python lists). -/
inductive Value where
  | nat : Nat → Value
  | seq : List Value → Value

/-- An insertion-ordered dictionary with string keys, the embedding of a
Python dict. -/
abbrev Dict (α : Type) := List (Key × α)

/-- The clipboard: a dict from keys to values. -/
abbrev Clipboard := Dict Value

/-- Dictionary lookup, Python `d[k]` (as an Option; absence is a
KeyError at use sites). -/
def lookupA {α : Type} : Dict α → Key → Option α
  | [], _ => none
  | p :: d, k => if p.1 == k then some p.2 else lookupA d k

/-- Membership test of a key, Python `dict.has_key`. -/
def hasA {α : Type} (d : Dict α) (k : Key) : Bool :=
  (lookupA d k).isSome

/-- Dictionary assignment, Python `d[k] = v`: replace the binding in
place if the key is present, otherwise append it. -/
def setA {α : Type} : Dict α → Key → α → Dict α
  | [], k, v => [(k, v)]
  | p :: d, k, v => if p.1 == k then (k, v) :: d else p :: setA d k v

/-- Dictionary merge, Python `d.update(e)`: assign every binding of `e`
into `d` in order, so later keys overwrite earlier ones of the same
name. -/
def updA {α : Type} (d e : Dict α) : Dict α :=
  e.foldl (fun acc p => setA acc p.1 p.2) d

/-- Errors the engine can signal.  Each constructor corresponds to one
`raise` or failing `assert` (or implicit Python exception) in stage.py. -/
inductive Err where
  | requireNotMet : String → Err
  | childRequireFail : String → String → Err
  | childProvideFail : String → String → Err
  | iterRequireFail : String → Err
  | iterProvideFail : String → Err
  | notIterable : Key → Err
  | lengthMismatch : List Key → Err
  | keyError : Key → Err
  | noneGet : Key → Err
  | rangeNone : Err
  | notImplemented : Err
deriving DecidableEq, Repr

/-- A stage: name, declared requires/provides, and the run body.  The
body returns `none` for Python `return None`, or a returned dict. -/
structure Stage where
  name : String
  requires : List Key
  provides : List Key
  run : Clipboard → Except Err (Option Clipboard)

/-- BaseStage._check: every key of the check set must be present in the
clipboard (the logging is not modelled). -/
def checkKeys (check : List Key) (c : Clipboard) : Bool :=
  check.all (fun k => hasA c k)

/-- BaseStage.checkRequire. -/
def checkRequire (s : Stage) (c : Clipboard) : Bool :=
  checkKeys s.requires c

/-- BaseStage.checkProvide. -/
def checkProvide (s : Stage) (c : Clipboard) : Bool :=
  checkKeys s.provides c

/-- IgnoredStage: the constructor forces both requires and provides to
empty regardless of the passed-in values, and run returns None. -/
def ignoredStage (name : String) (_reqs _provs : List Key) : Stage :=
  { name := name, requires := [], provides := [],
    run := fun _ => .ok none }

/-- One step of the aggregation loop in MultiStage.__init__: fold a
child into the accumulated (requires, provides) pair.  A child's
required key is added unless already accumulated as required or already
provided by an earlier child; a provided key is added unless already
provided. -/
def aggStep (acc : List Key × List Key) (s : Stage) : List Key × List Key :=
  (s.requires.foldl
      (fun r k => if r.contains k || acc.2.contains k then r else r ++ [k]) acc.1,
   s.provides.foldl
      (fun p k => if p.contains k then p else p ++ [k]) acc.2)

/-- MultiStage.__init__ lines 115-130: derive the composite's requires
and provides from the children, then union in the explicitly declared
own requires and provides. -/
def deriveContract (stages : List Stage) (ownReq ownProv : List Key) :
    List Key × List Key :=
  let rp := stages.foldl aggStep ([], [])
  (ownReq.foldl (fun r k => if r.contains k then r else r ++ [k]) rp.1,
   ownProv.foldl (fun p k => if p.contains k then p else p ++ [k]) rp.2)

/-- The child loop of MultiStage.run: assert each child's checkRequire
against the current clipboard, run it, and if it returns a non-null
delta assert the child's checkProvide on the delta and merge it. -/
def multiRunFrom (parent : String) : List Stage → Clipboard → Except Err Clipboard
  | [], c => .ok c
  | s :: rest, c =>
    if checkKeys s.requires c then
      match s.run c with
      | .error e => .error e
      | .ok none => multiRunFrom parent rest c
      | .ok (some ret) =>
        if checkKeys s.provides ret then multiRunFrom parent rest (updA c ret)
        else .error (.childProvideFail s.name parent)
    else .error (.childRequireFail s.name parent)

/-- MultiStage.run: raise if the composite-level checkRequire fails,
otherwise run the children in declared order and return the final
merged clipboard. -/
def multiStageRun (name : String) (stages : List Stage) (mReq : List Key)
    (c : Clipboard) : Except Err Clipboard :=
  if checkKeys mReq c then multiRunFrom name stages c
  else .error (.requireNotMet name)

/-- MultiStage as a Stage value: contract derived by `deriveContract`,
run body `multiStageRun` (which never returns None). -/
def mkMultiStage (name : String) (stages : List Stage)
    (ownReq ownProv : List Key) : Stage :=
  { name := name,
    requires := (deriveContract stages ownReq ownProv).1,
    provides := (deriveContract stages ownReq ownProv).2,
    run := fun c =>
      (multiStageRun name stages (deriveContract stages ownReq ownProv).1 c).map some }

/-- The sequence-gathering loop at IterateStage.run lines 178-188: for
each iterated key fetch the sequence from the clipboard (KeyError if
absent), assert it is iterable, adopt the first sequence's length and
raise a RuntimeError naming the full iterated key list when a later
sequence's length differs.  `ks0` is the stage's full iterate list used
in the error report, `len` the length adopted so far. -/
def gatherGo (ks0 : List Key) (c : Clipboard) :
    List Key → Dict (List Value) → Option Nat →
    Except Err (Dict (List Value) × Option Nat)
  | [], acc, len => .ok (acc, len)
  | k :: rest, acc, len =>
    match lookupA c k with
    | none => .error (.keyError k)
    | some (.nat _) => .error (.notIterable k)
    | some (.seq arr) =>
      match len with
      | none => gatherGo ks0 c rest (setA acc k arr) (some arr.length)
      | some l =>
        if arr.length = l then gatherGo ks0 c rest (setA acc k arr) (some l)
        else .error (.lengthMismatch ks0)

/-- Gather the iterated sequences of an IterateStage run; the resulting
length is `none` exactly when the iterate list is empty (in which case
Python's `range(None)` raises). -/
def gatherIterate (ks : List Key) (c : Clipboard) :
    Except Err (Dict (List Value) × Option Nat) :=
  gatherGo ks c ks [] none

/-- Build the per-element clipboard view at index `i` (IterateStage.run
lines 192-196): a copy of the outer clipboard with each iterated key
rebound to its sequence's element at `i`. -/
def mkView (i : Nat) : List Key → Dict (List Value) → Clipboard →
    Except Err Clipboard
  | [], _, clip => .ok clip
  | k :: rest, arrays, clip =>
    match lookupA arrays k with
    | none => .error (.keyError k)
    | some arr =>
      match arr.get? i with
      | none => .error (.keyError k)
      | some v => mkView i rest arrays (setA clip k v)

/-- Write the body's per-element results back into the sequences at
index `i` (IterateStage.run lines 199-201).  If the body returned None,
indexing `clip[name]` raises a TypeError at the first iterated key; if
the returned mapping lacks an iterated key, a KeyError. -/
def writeBack (i : Nat) : List Key → Option Clipboard → Dict (List Value) →
    Except Err (Dict (List Value))
  | [], _, arrays => .ok arrays
  | k :: _, none, _ => .error (.noneGet k)
  | k :: rest, some d, arrays =>
    match lookupA arrays k with
    | none => .error (.keyError k)
    | some arr =>
      match lookupA d k with
      | none => .error (.keyError k)
      | some v =>
        if i < arr.length then
          writeBack i rest (some d) (setA arrays k (arr.set i v))
        else .error (.keyError k)

/-- The per-index loop of IterateStage.run lines 190-201: for each index
build the view, invoke the body, and write the results back. -/
def iterLoop (body : Clipboard → Except Err (Option Clipboard))
    (ks : List Key) (c : Clipboard) :
    List Nat → Dict (List Value) → Except Err (Dict (List Value))
  | [], arrays => .ok arrays
  | i :: rest, arrays =>
    match mkView i ks arrays c with
    | .error e => .error e
    | .ok clip =>
      match body clip with
      | .error e => .error e
      | .ok ret =>
        match writeBack i ks ret arrays with
        | .error e => .error e
        | .ok arrays' => iterLoop body ks c rest arrays'

/-- The net effect on the outer clipboard of Python's in-place updates
`array[index] = ...`: each iterated key's sequence, as mutated by the
loop, replaces the original bound to the same key. -/
def putBack (ks : List Key) (arrays : Dict (List Value)) (c : Clipboard) :
    Clipboard :=
  ks.foldl
    (fun cl k =>
      match lookupA arrays k with
      | some arr => setA cl k (.seq arr)
      | none => cl) c

/-- IterateStage.run with the inherited body abstracted: assert
checkRequire, gather the sequences, loop over the indices, and assert
checkProvide on the (in-place mutated) outer clipboard. -/
def iterStageRun (name : String) (sReq sProv ks : List Key)
    (body : Clipboard → Except Err (Option Clipboard))
    (c : Clipboard) : Except Err Clipboard :=
  if checkKeys sReq c then
    match gatherIterate ks c with
    | .error e => .error e
    | .ok (arrays, len) =>
      match len with
      | none => .error .rangeNone
      | some l =>
        match iterLoop body ks c (List.range l) arrays with
        | .error e => .error e
        | .ok arrays' =>
          let final := putBack ks arrays' c
          if checkKeys sProv final then .ok final
          else .error (.iterProvideFail name)
  else .error (.iterRequireFail name)

/-- IterateMultiStage.run: by the Python method-resolution order this is
IterateStage.run whose inherited body is MultiStage.run over the child
stages, with the contract derived by MultiStage.__init__. -/
def iterMultiStageRun (name : String) (ks : List Key) (stages : List Stage)
    (ownReq ownProv : List Key) (c : Clipboard) : Except Err Clipboard :=
  iterStageRun name
    (deriveContract stages ownReq ownProv).1
    (deriveContract stages ownReq ownProv).2
    ks
    (fun clip =>
      (multiStageRun name stages (deriveContract stages ownReq ownProv).1 clip).map some)
    c

/-- Ghost-instrumented variant of the MultiStage.run child loop: the
same control flow as `multiRunFrom`, additionally recording the list
position of every child whose run body is invoked, in invocation order.
`j` is the position of the first remaining child. -/
def multiRunFromTr (parent : String) :
    List Stage → Clipboard → Nat → Except Err (Clipboard × List Nat)
  | [], c, _ => .ok (c, [])
  | s :: rest, c, j =>
    if checkKeys s.requires c then
      match s.run c with
      | .error e => .error e
      | .ok none =>
        match multiRunFromTr parent rest c (j + 1) with
        | .error e => .error e
        | .ok (c', t) => .ok (c', j :: t)
      | .ok (some ret) =>
        if checkKeys s.provides ret then
          match multiRunFromTr parent rest (updA c ret) (j + 1) with
          | .error e => .error e
          | .ok (c', t) => .ok (c', j :: t)
        else .error (.childProvideFail s.name parent)
    else .error (.childRequireFail s.name parent)

/-- Ghost-instrumented variant of the per-index loop: the body also
reports a trace, and each of its entries is tagged with the loop index
it was produced at. -/
def iterLoopTr {τ : Type}
    (bodyTr : Clipboard → Except Err (Option Clipboard × List τ))
    (ks : List Key) (c : Clipboard) :
    List Nat → Dict (List Value) →
    Except Err (Dict (List Value) × List (Nat × τ))
  | [], arrays => .ok (arrays, [])
  | i :: rest, arrays =>
    match mkView i ks arrays c with
    | .error e => .error e
    | .ok clip =>
      match bodyTr clip with
      | .error e => .error e
      | .ok (ret, t) =>
        match writeBack i ks ret arrays with
        | .error e => .error e
        | .ok arrays' =>
          match iterLoopTr bodyTr ks c rest arrays' with
          | .error e => .error e
          | .ok (arrays'', t') => .ok (arrays'', (t.map (fun x => (i, x))) ++ t')

/-- Ghost-instrumented IterateStage.run: records, tagged with its index,
the clipboard view each body invocation receives. -/
def iterStageRunTr (name : String) (sReq sProv ks : List Key)
    (body : Clipboard → Except Err (Option Clipboard))
    (c : Clipboard) : Except Err (Clipboard × List (Nat × Clipboard)) :=
  if checkKeys sReq c then
    match gatherIterate ks c with
    | .error e => .error e
    | .ok (arrays, len) =>
      match len with
      | none => .error .rangeNone
      | some l =>
        match iterLoopTr (fun clip => (body clip).map (fun r => (r, [clip])))
            ks c (List.range l) arrays with
        | .error e => .error e
        | .ok (arrays', tr) =>
          let final := putBack ks arrays' c
          if checkKeys sProv final then .ok (final, tr)
          else .error (.iterProvideFail name)
  else .error (.iterRequireFail name)

/-- Ghost-instrumented IterateMultiStage.run: records, for every child
invocation, the pair (iteration index, child position), in invocation
order. -/
def iterMultiStageRunTr (name : String) (ks : List Key) (stages : List Stage)
    (ownReq ownProv : List Key) (c : Clipboard) :
    Except Err (Clipboard × List (Nat × Nat)) :=
  if checkKeys (deriveContract stages ownReq ownProv).1 c then
    match gatherIterate ks c with
    | .error e => .error e
    | .ok (arrays, len) =>
      match len with
      | none => .error .rangeNone
      | some l =>
        match iterLoopTr
            (fun clip =>
              if checkKeys (deriveContract stages ownReq ownProv).1 clip then
                match multiRunFromTr name stages clip 0 with
                | .error e => .error e
                | .ok (c', t) => .ok (some c', t)
              else .error (.requireNotMet name))
            ks c (List.range l) arrays with
        | .error e => .error e
        | .ok (arrays', tr) =>
          let final := putBack ks arrays' c
          if checkKeys (deriveContract stages ownReq ownProv).2 final then .ok (final, tr)
          else .error (.iterProvideFail name)
  else .error (.iterRequireFail name)

/-- A simple leaf stage whose run returns a fixed delta; used to
instantiate theorems at concrete pipelines. -/
def mkSimple (name : String) (rq pv : List Key) (d : Clipboard) : Stage :=
  { name := name, requires := rq, provides := pv, run := fun _ => .ok (some d) }

/-- A leaf stage whose run returns the whole clipboard it was given as
its delta. -/
def echoStage (name : String) : Stage :=
  { name := name, requires := [], provides := [], run := fun c => .ok (some c) }

/-- A placeholder stage for positional indexing defaults. -/
def dummyStage : Stage :=
  { name := "", requires := [], provides := [], run := fun _ => .error .notImplemented }

/-- A key surfaces in the derived requires of a composite iff some child
requires it and no strictly earlier child provides it. -/
def surfacedReq (stages : List Stage) (k : Key) : Prop :=
  ∃ pre s post, stages = pre ++ s :: post ∧ k ∈ s.requires ∧
    ∀ t ∈ pre, k ∉ t.provides

/-- Modelled from the claim's wording for the aggregation rule: a key is
in the claimed derived requires iff it is an explicit own-require, or
some child requires it and there is no pair i ≤ j with the key in child
i's provides and child j's requires. -/
def claimedReqB (stages : List Stage) (ownReq : List Key) (k : Key) : Bool :=
  ownReq.contains k ||
    (stages.any (fun s => s.requires.contains k) &&
     ! ((List.range stages.length).any (fun i =>
          (List.range stages.length).any (fun j =>
            decide (i ≤ j) &&
              ((stages.getD i dummyStage).provides.contains k &&
               (stages.getD j dummyStage).requires.contains k)))))

/-- Modelled from the claim's wording for MultiStage.run: process the
children in declared order; for each child that returns a non-null
delta, assert the delta satisfies the child's checkProvide and merge it
into the working clipboard; return the final merged clipboard. -/
def mergeChildren (parent : String) : List Stage → Clipboard → Except Err Clipboard
  | [], c => .ok c
  | s :: rest, c =>
    match s.run c with
    | .error e => .error e
    | .ok none => mergeChildren parent rest c
    | .ok (some ret) =>
      if checkKeys s.provides ret then mergeChildren parent rest (updA c ret)
      else .error (.childProvideFail s.name parent)

/-- The per-child checkRequire asserts of MultiStage.run all succeed
along the merge trajectory. -/
def requiresOkAlong : List Stage → Clipboard → Bool
  | [], _ => true
  | s :: rest, c =>
    checkKeys s.requires c &&
      (match s.run c with
       | .error _ => true
       | .ok none => requiresOkAlong rest c
       | .ok (some ret) =>
         !checkKeys s.provides ret || requiresOkAlong rest (updA c ret))

/-- Total description of the per-element view built by mkView: the outer
clipboard with each iterated key rebound to its sequence's element at
index `i`. -/
def viewAt (ks : List Key) (arrays : Dict (List Value)) (c : Clipboard)
    (i : Nat) : Clipboard :=
  ks.foldl
    (fun cl k =>
      match lookupA arrays k with
      | some arr =>
        match arr.get? i with
        | some v => setA cl k v
        | none => cl
      | none => cl) c

/-- The value a body's returned mapping binds to a key (total, with an
irrelevant default). -/
def valAt (d : Clipboard) (k : Key) : Value :=
  (lookupA d k).getD (.nat 0)

/-- The iterated sequences after a full IterateStage run with a total
body `B`: at every index, the value `B` bound to the key in that
index's view. -/
def finalArrays (ks : List Key) (B : Clipboard → Clipboard) (c : Clipboard)
    (arrays0 : Dict (List Value)) (l : Nat) : Dict (List Value) :=
  arrays0.map
    (fun p => (p.1, (List.range l).map (fun i => valAt (B (viewAt ks arrays0 c i)) p.1)))

/-- Concrete stage providing key b, for instantiating theorems. -/
def w2a : Stage := mkSimple "w2a" [] ["b"] [("b", .nat 1)]

/-- Concrete stage requiring key b, for instantiating theorems. -/
def w2b : Stage := mkSimple "w2b" ["b"] [] []

/-- Concrete leaf whose delta adds key x without declaring it. -/
def w9 : Stage := mkSimple "w9" [] [] [("x", .nat 7)]

/-- Concrete composite providing key x through a nested child. -/
def in9 : Stage := mkMultiStage "in9" [mkSimple "w9p" [] ["x"] [("x", .nat 7)]] [] []

/-- Concrete leaf requiring key x. -/
def r9 : Stage := mkSimple "r9" ["x"] [] []

/-- Concrete echo children for instantiating the interleaving theorem. -/
def e4a : Stage := echoStage "e4a"

/-- Second concrete echo child. -/
def e4b : Stage := echoStage "e4b"

/-- Concrete clipboard with two parallel length-3 sequences. -/
def c5c : Clipboard :=
  [("a", .seq [.nat 1, .nat 2, .nat 3]), ("b", .seq [.nat 4, .nat 5, .nat 6])]

/-- The gathered arrays of `c5c`. -/
def a5c : Dict (List Value) :=
  [("a", [.nat 1, .nat 2, .nat 3]), ("b", [.nat 4, .nat 5, .nat 6])]

/-- A concrete total body writing fixed values to both iterated keys. -/
def b5 : Clipboard → Clipboard := fun _ => [("a", .nat 9), ("b", .nat 8)]

/-! Basic lemmas about the dictionary model. -/

theorem lookupA_setA_self {α : Type} (d : Dict α) (k : Key) (v : α) :
    lookupA (setA d k v) k = some v := by
  induction d with
  | nil => simp [setA, lookupA]
  | cons p d ih =>
    by_cases h : p.1 = k
    · simp only [setA]
      rw [if_pos (by simp [h])]
      simp [lookupA]
    · simp only [setA]
      rw [if_neg (by simp [h])]
      simp [lookupA, h, ih]

theorem lookupA_setA_ne {α : Type} (d : Dict α) (k k' : Key) (v : α)
    (h : k' ≠ k) : lookupA (setA d k v) k' = lookupA d k' := by
  induction d with
  | nil => simp [setA, lookupA, Ne.symm h]
  | cons p d ih =>
    by_cases hp : p.1 = k
    · subst hp
      simp only [setA]
      rw [if_pos (by simp)]
      simp [lookupA, Ne.symm h]
    · simp only [setA]
      rw [if_neg (by simp [hp])]
      by_cases hp' : p.1 = k'
      · simp [lookupA, hp']
      · simp [lookupA, hp', ih]

theorem hasA_setA {α : Type} (d : Dict α) (k k' : Key) (v : α) :
    hasA (setA d k v) k' = (k' == k || hasA d k') := by
  by_cases h : k' = k
  · subst h
    simp [hasA, lookupA_setA_self]
  · simp [hasA, lookupA_setA_ne d k k' v h, h]

theorem updA_cons {α : Type} (d : Dict α) (p : Key × α) (e : Dict α) :
    updA d (p :: e) = updA (setA d p.1 p.2) e := rfl

theorem hasA_updA {α : Type} (d e : Dict α) (k : Key) :
    hasA (updA d e) k = (hasA d k || hasA e k) := by
  induction e generalizing d with
  | nil => simp [updA, hasA, lookupA]
  | cons p e ih =>
    rw [updA_cons, ih, hasA_setA]
    by_cases h : p.1 = k
    · simp [hasA, lookupA, h]
    · simp [hasA, lookupA, h, Ne.symm h, Bool.or_assoc]

theorem setA_eq_of_lookup {α : Type} (d : Dict α) (k : Key) (v : α)
    (h : lookupA d k = some v) : setA d k v = d := by
  induction d with
  | nil => simp [lookupA] at h
  | cons p d ih =>
    by_cases hp : p.1 = k
    · simp only [lookupA] at h
      rw [if_pos (by simp [hp])] at h
      injection h with h2
      subst h2
      simp only [setA]
      rw [if_pos (by simp [hp]), ← hp]
    · simp only [lookupA] at h
      rw [if_neg (by simp [hp])] at h
      simp only [setA]
      rw [if_neg (by simp [hp]), ih h]

theorem checkKeys_iff (l : List Key) (c : Clipboard) :
    checkKeys l c = true ↔ ∀ k ∈ l, hasA c k = true := by
  simp [checkKeys, List.all_eq_true]

/-! Claim C7: IgnoredStage. -/

/-- C7 (counterexample): IgnoredStage.run does not return its input
clipboard; on a concrete clipboard it returns None rather than the
clipboard. -/
theorem C7_ignored_cx :
    ¬ ((ignoredStage "ig" ["r"] ["p"]).run [("a", .nat 1)]
        = .ok (some [("a", .nat 1)])) := by
  intro h
  have h' : (Option.none : Option Clipboard) = some [("a", Value.nat 1)] :=
    Except.ok.inj h
  exact Option.noConfusion h'

/-- C7 (amended): for every clipboard, IgnoredStage.run returns None (no
delta) and never raises — which leaves the caller's clipboard unchanged
under MultiStage's merge protocol — and its requires and provides are
forced empty regardless of the values passed at construction. -/
theorem C7_ignored_noop : ∀ (n : String) (rq pv : List Key) (c : Clipboard),
    (ignoredStage n rq pv).run c = .ok none ∧
    (ignoredStage n rq pv).requires = [] ∧
    (ignoredStage n rq pv).provides = [] ∧
    multiRunFrom "parent" [ignoredStage n rq pv] c = .ok c := by
  intro n rq pv c
  exact ⟨rfl, rfl, rfl, rfl⟩

/-! Characterization of the aggregation in MultiStage.__init__. -/

theorem mem_foldl_insert (l acc : List Key) (k : Key) :
    k ∈ l.foldl (fun p x => if p.contains x then p else p ++ [x]) acc ↔
      k ∈ acc ∨ k ∈ l := by
  induction l generalizing acc with
  | nil => simp
  | cons a l ih =>
    rw [List.foldl_cons, ih]
    by_cases hc : acc.contains a
    · rw [if_pos hc]
      have ha : a ∈ acc := by simpa using hc
      constructor
      · rintro (h | h)
        · exact Or.inl h
        · exact Or.inr (List.mem_cons_of_mem a h)
      · rintro (h | h)
        · exact Or.inl h
        · rcases List.mem_cons.1 h with h | h
          · exact Or.inl (h ▸ ha)
          · exact Or.inr h
    · rw [if_neg hc]
      constructor
      · rintro (h | h)
        · rcases List.mem_append.1 h with h | h
          · exact Or.inl h
          · exact Or.inr (by simpa using Or.inl (by simpa using h))
        · exact Or.inr (List.mem_cons_of_mem a h)
      · rintro (h | h)
        · exact Or.inl (List.mem_append_left _ h)
        · rcases List.mem_cons.1 h with h | h
          · exact Or.inl (List.mem_append_right _ (by simp [h]))
          · exact Or.inr h

theorem mem_foldl_insertReq (l acc pr : List Key) (k : Key) :
    k ∈ l.foldl
        (fun r x => if r.contains x || pr.contains x then r else r ++ [x]) acc ↔
      k ∈ acc ∨ (k ∈ l ∧ k ∉ pr) := by
  induction l generalizing acc with
  | nil => simp
  | cons a l ih =>
    rw [List.foldl_cons, ih]
    by_cases hc : (acc.contains a || pr.contains a) = true
    · rw [if_pos hc]
      rcases Bool.or_eq_true_iff.1 hc with hc' | hc'
      · have ha : a ∈ acc := by simpa using hc'
        constructor
        · rintro (h | ⟨h1, h2⟩)
          · exact Or.inl h
          · exact Or.inr ⟨List.mem_cons_of_mem a h1, h2⟩
        · rintro (h | ⟨h1, h2⟩)
          · exact Or.inl h
          · rcases List.mem_cons.1 h1 with h1 | h1
            · exact Or.inl (h1 ▸ ha)
            · exact Or.inr ⟨h1, h2⟩
      · have ha : a ∈ pr := by simpa using hc'
        constructor
        · rintro (h | ⟨h1, h2⟩)
          · exact Or.inl h
          · exact Or.inr ⟨List.mem_cons_of_mem a h1, h2⟩
        · rintro (h | ⟨h1, h2⟩)
          · exact Or.inl h
          · rcases List.mem_cons.1 h1 with h1 | h1
            · exact absurd (h1 ▸ ha) h2
            · exact Or.inr ⟨h1, h2⟩
    · rw [if_neg hc]
      have hpr : a ∉ pr := by
        intro hmem
        exact hc (Bool.or_eq_true_iff.2 (Or.inr (by simpa using hmem)))
      constructor
      · rintro (h | ⟨h1, h2⟩)
        · rcases List.mem_append.1 h with h | h
          · exact Or.inl h
          · have : k = a := by simpa using h
            exact Or.inr ⟨by simp [this], this ▸ hpr⟩
        · exact Or.inr ⟨List.mem_cons_of_mem a h1, h2⟩
      · rintro (h | ⟨h1, h2⟩)
        · exact Or.inl (List.mem_append_left _ h)
        · rcases List.mem_cons.1 h1 with h1 | h1
          · exact Or.inl (List.mem_append_right _ (by simp [h1]))
          · exact Or.inr ⟨h1, h2⟩

theorem mem_aggFold_prov (stages : List Stage) (acc : List Key × List Key)
    (k : Key) :
    k ∈ (stages.foldl aggStep acc).2 ↔
      k ∈ acc.2 ∨ ∃ s ∈ stages, k ∈ s.provides := by
  induction stages generalizing acc with
  | nil => simp
  | cons s l ih =>
    rw [List.foldl_cons, ih]
    have hstep : (aggStep acc s).2 =
        s.provides.foldl (fun p x => if p.contains x then p else p ++ [x]) acc.2 := rfl
    rw [hstep]
    constructor
    · rintro (h | ⟨t, ht, hk⟩)
      · rcases (mem_foldl_insert _ _ _).1 h with h | h
        · exact Or.inl h
        · exact Or.inr ⟨s, List.mem_cons_self s l, h⟩
      · exact Or.inr ⟨t, List.mem_cons_of_mem s ht, hk⟩
    · rintro (h | ⟨t, ht, hk⟩)
      · exact Or.inl ((mem_foldl_insert _ _ _).2 (Or.inl h))
      · rcases List.mem_cons.1 ht with ht | ht
        · exact Or.inl ((mem_foldl_insert _ _ _).2 (Or.inr (ht ▸ hk)))
        · exact Or.inr ⟨t, ht, hk⟩

theorem mem_aggFold_req (stages : List Stage) (acc : List Key × List Key)
    (k : Key) :
    k ∈ (stages.foldl aggStep acc).1 ↔
      k ∈ acc.1 ∨ ∃ pre s post, stages = pre ++ s :: post ∧ k ∈ s.requires ∧
        k ∉ acc.2 ∧ ∀ t ∈ pre, k ∉ t.provides := by
  induction stages generalizing acc with
  | nil =>
    simp only [List.foldl_nil]
    constructor
    · exact fun h => Or.inl h
    · rintro (h | ⟨pre, s, post, habs, _⟩)
      · exact h
      · exact absurd habs (by simp)
  | cons s l ih =>
    rw [List.foldl_cons, ih]
    have hstep1 : (aggStep acc s).1 =
        s.requires.foldl
          (fun r x => if r.contains x || acc.2.contains x then r else r ++ [x])
          acc.1 := rfl
    have hstep2 : k ∈ (aggStep acc s).2 ↔ k ∈ acc.2 ∨ k ∈ s.provides := by
      have : (aggStep acc s).2 =
          s.provides.foldl (fun p x => if p.contains x then p else p ++ [x]) acc.2 := rfl
      rw [this]
      exact mem_foldl_insert _ _ _
    rw [hstep1, mem_foldl_insertReq]
    constructor
    · rintro ((h | ⟨h1, h2⟩) | ⟨pre, t, post, hl, hreq, hnp, hpre⟩)
      · exact Or.inl h
      · exact Or.inr ⟨[], s, l, rfl, h1, h2, by simp⟩
      · refine Or.inr ⟨s :: pre, t, post, by simp [hl], hreq, ?_, ?_⟩
        · intro hmem
          exact hnp (hstep2.2 (Or.inl hmem))
        · intro u hu
          rcases List.mem_cons.1 hu with hu | hu
          · intro habs
            exact hnp (hstep2.2 (Or.inr (hu ▸ habs)))
          · exact hpre u hu
    · rintro (h | ⟨pre, t, post, hl, hreq, hnp, hpre⟩)
      · exact Or.inl (Or.inl h)
      · cases pre with
        | nil =>
          have hts : t = s := by
            have := hl
            simp at this
            exact this.1.symm
          exact Or.inl (Or.inr ⟨hts ▸ hreq, hnp⟩)
        | cons u pre' =>
          have hus : u = s ∧ l = pre' ++ t :: post := by
            have := hl
            simp at this
            exact ⟨this.1.symm, this.2⟩
          refine Or.inr ⟨pre', t, post, hus.2, hreq, ?_, ?_⟩
          · intro hmem
            rcases hstep2.1 hmem with h | h
            · exact hnp h
            · exact hpre u (by simp) (hus.1 ▸ h)
          · intro v hv
            exact hpre v (List.mem_cons_of_mem u hv)

/-! Claim C1: the MultiStage aggregation rule. -/

/-- C1 (counterexample): for a single child that both requires and
provides the key "a", the code's derived requires contains "a" (the
requires of a child are examined before its own provides are
accumulated), while the claim's rule — excluding any key in some
Ci.provides appearing in some Cj.requires with j ≥ i — would exclude
it. -/
theorem C1_aggregation_cx :
    "a" ∈ (deriveContract [mkSimple "s" ["a"] ["a"] []] [] []).1 ∧
    claimedReqB [mkSimple "s" ["a"] ["a"] []] [] "a" = false := by
  constructor
  · decide
  · rfl

/-- C1 (amended): for every MultiStage from children with explicit own
requires R and provides P, the derived requires are exactly R together
with every key some child requires that no strictly earlier child
provides (a key required and provided by the same child still
surfaces), and the derived provides are exactly P together with the
union of all children's provides. -/
theorem C1_aggregation : ∀ (stages : List Stage) (ownReq ownProv : List Key)
    (k : Key),
    (k ∈ (deriveContract stages ownReq ownProv).1 ↔
      k ∈ ownReq ∨ surfacedReq stages k) ∧
    (k ∈ (deriveContract stages ownReq ownProv).2 ↔
      k ∈ ownProv ∨ ∃ s ∈ stages, k ∈ s.provides) := by
  intro stages ownReq ownProv k
  constructor
  · have h1 : (deriveContract stages ownReq ownProv).1 =
        ownReq.foldl (fun r x => if r.contains x then r else r ++ [x])
          (stages.foldl aggStep ([], [])).1 := rfl
    rw [h1, mem_foldl_insert, mem_aggFold_req]
    constructor
    · rintro (h | h)
      · rcases h with h | ⟨pre, s, post, hl, hreq, _, hpre⟩
        · exact absurd h (by simp)
        · exact Or.inr ⟨pre, s, post, hl, hreq, hpre⟩
      · exact Or.inl h
    · rintro (h | ⟨pre, s, post, hl, hreq, hpre⟩)
      · exact Or.inr h
      · exact Or.inl (Or.inr ⟨pre, s, post, hl, hreq, by simp, hpre⟩)
  · have h2 : (deriveContract stages ownReq ownProv).2 =
        ownProv.foldl (fun p x => if p.contains x then p else p ++ [x])
          (stages.foldl aggStep ([], [])).2 := rfl
    rw [h2, mem_foldl_insert, mem_aggFold_prov]
    constructor
    · rintro (h | h)
      · rcases h with h | h
        · exact absurd h (by simp)
        · exact Or.inr h
      · exact Or.inl h
    · rintro (h | h)
      · exact Or.inr h
      · exact Or.inl (Or.inr h)

/-! Claim C2: soundness of the aggregation rule. -/

theorem multiRunFrom_sound (name : String) (stages : List Stage)
    (ownReq ownProv : List Key)
    (hcontract : ∀ s ∈ stages, ∀ clip, ∃ d,
      s.run clip = .ok (some d) ∧ checkKeys s.provides d = true) :
    ∀ (post pre : List Stage) (c : Clipboard), stages = pre ++ post →
    (∀ k, (k ∈ (deriveContract stages ownReq ownProv).1 ∨
           ∃ t ∈ pre, k ∈ t.provides) → hasA c k = true) →
    ∃ c', multiRunFrom name post c = .ok c' := by
  intro post
  induction post with
  | nil => exact fun pre c _ _ => ⟨c, rfl⟩
  | cons s rest ih =>
    intro pre c hsplit hinv
    have hsmem : s ∈ stages := by
      rw [hsplit]
      exact List.mem_append_right pre (List.mem_cons_self s rest)
    have hreq : checkKeys s.requires c = true := by
      rw [checkKeys_iff]
      intro k hk
      by_cases hp : ∃ t ∈ pre, k ∈ t.provides
      · exact hinv k (Or.inr hp)
      · apply hinv k
        apply Or.inl
        have hfold : k ∈ (stages.foldl aggStep ([], [])).1 := by
          rw [mem_aggFold_req]
          refine Or.inr ⟨pre, s, rest, hsplit, hk, by simp, ?_⟩
          intro t ht hmem
          exact hp ⟨t, ht, hmem⟩
        have hd : (deriveContract stages ownReq ownProv).1 =
            ownReq.foldl (fun r x => if r.contains x then r else r ++ [x])
              (stages.foldl aggStep ([], [])).1 := rfl
        rw [hd, mem_foldl_insert]
        exact Or.inl hfold
    rcases hcontract s hsmem c with ⟨d, hrun, hprov⟩
    have hsplit' : stages = (pre ++ [s]) ++ rest := by
      rw [hsplit, List.append_assoc]
      rfl
    have hinv' : ∀ k, (k ∈ (deriveContract stages ownReq ownProv).1 ∨
        ∃ t ∈ pre ++ [s], k ∈ t.provides) → hasA (updA c d) k = true := by
      intro k hk
      rw [hasA_updA]
      rcases hk with hk | ⟨t, ht, hkt⟩
      · rw [hinv k (Or.inl hk)]
        rfl
      · rcases List.mem_append.1 ht with ht | ht
        · rw [hinv k (Or.inr ⟨t, ht, hkt⟩)]
          rfl
        · have hts : t = s := by simpa using ht
          have : hasA d k = true :=
            (checkKeys_iff s.provides d).1 hprov k (hts ▸ hkt)
          rw [this]
          simp
    rcases ih (pre ++ [s]) (updA c d) hsplit' hinv' with ⟨c', hc'⟩
    refine ⟨c', ?_⟩
    simp only [multiRunFrom, hreq, if_true, hrun, hprov, hc']

/-- C2: for every MultiStage (any child order) whose children fulfil
their provides contract — each run returns a delta satisfying its
checkProvide — running it on an initial clipboard whose key set is
exactly the composite's derived requires succeeds: in particular no
per-child checkRequire assert fires, every key a child requires being
either in the derived requires or merged from an earlier child's
delta. -/
theorem C2_aggregation_sound : ∀ (name : String) (stages : List Stage)
    (ownReq ownProv : List Key) (c : Clipboard),
    (∀ s ∈ stages, ∀ clip, ∃ d,
      s.run clip = .ok (some d) ∧ checkKeys s.provides d = true) →
    (∀ k, hasA c k = true ↔ k ∈ (deriveContract stages ownReq ownProv).1) →
    ∃ c', multiStageRun name stages (deriveContract stages ownReq ownProv).1 c
      = .ok c' := by
  intro name stages ownReq ownProv c hcontract hexact
  have hsup : ∀ k, k ∈ (deriveContract stages ownReq ownProv).1 →
      hasA c k = true := fun k hk => (hexact k).2 hk
  have htop : checkKeys (deriveContract stages ownReq ownProv).1 c = true := by
    rw [checkKeys_iff]
    exact hsup
  have hinv : ∀ k, (k ∈ (deriveContract stages ownReq ownProv).1 ∨
      ∃ t ∈ ([] : List Stage), k ∈ t.provides) → hasA c k = true := by
    intro k hk
    rcases hk with hk | ⟨t, ht, _⟩
    · exact hsup k hk
    · exact absurd ht (by simp)
  rcases multiRunFrom_sound name stages ownReq ownProv hcontract stages [] c rfl hinv
    with ⟨c', hc'⟩
  exact ⟨c', by simp only [multiStageRun, htop, if_true, hc']⟩

/-- C2 (witness): a two-child pipeline where the second child's
requirement is provided by the first; the derived requires are empty and
the run from an empty clipboard succeeds. -/
theorem C2_aggregation_sound_witness :
    ∃ c', multiStageRun "m2" [w2a, w2b] (deriveContract [w2a, w2b] [] []).1 []
      = .ok c' := by
  apply C2_aggregation_sound "m2" [w2a, w2b] [] [] []
  · intro s hs clip
    rcases List.mem_cons.1 hs with h | hs'
    · subst h
      exact ⟨[("b", .nat 1)], rfl, rfl⟩
    · rcases List.mem_cons.1 hs' with h | h
      · subst h
        exact ⟨[], rfl, rfl⟩
      · exact absurd h (by simp)
  · intro k
    rw [show (deriveContract [w2a, w2b] [] []).1 = ([] : List Key) from rfl]
    simp [hasA, lookupA]

/-! Claim C3: the behaviour of MultiStage.run. -/

theorem multiRunFrom_eq_mergeChildren (name : String) :
    ∀ (stages : List Stage) (c : Clipboard), requiresOkAlong stages c = true →
    multiRunFrom name stages c = mergeChildren name stages c := by
  intro stages
  induction stages with
  | nil => intro c _; rfl
  | cons s rest ih =>
    intro c hok
    simp only [requiresOkAlong, Bool.and_eq_true] at hok
    obtain ⟨hreq, hrest⟩ := hok
    simp only [multiRunFrom, mergeChildren, hreq, if_true]
    cases hrun : s.run c with
    | error e => rfl
    | ok r =>
      rw [hrun] at hrest
      cases r with
      | none => exact ih c hrest
      | some ret =>
        dsimp only at hrest ⊢
        by_cases hp : checkKeys s.provides ret = true
        · rw [hp] at hrest
          simp only [Bool.not_true, Bool.false_or] at hrest
          simp only [hp, if_true]
          exact ih (updA c ret) hrest
        · rw [if_neg hp, if_neg hp]

/-- C3: MultiStage.run fails with the composite-level requirement error
exactly when checkRequire fails on the incoming clipboard; otherwise,
whenever the per-child checkRequire asserts hold along the trajectory,
it coincides with the spec-side mergeChildren fold — children processed
in declared order, each non-null delta checked against the child's
checkProvide and merged with later keys overwriting earlier ones, the
final merged clipboard returned. -/
theorem C3_run_behavior : ∀ (name : String) (stages : List Stage)
    (mReq : List Key) (c : Clipboard),
    (checkKeys mReq c = false →
      multiStageRun name stages mReq c = .error (.requireNotMet name)) ∧
    (checkKeys mReq c = true → requiresOkAlong stages c = true →
      multiStageRun name stages mReq c = mergeChildren name stages c) := by
  intro name stages mReq c
  constructor
  · intro h
    simp [multiStageRun, h]
  · intro h hok
    simp only [multiStageRun, h, if_true]
    exact multiRunFrom_eq_mergeChildren name stages c hok

/-- C3 (witness): on a concrete one-child pipeline with satisfied
checks, MultiStage.run equals the spec-side merge fold. -/
theorem C3_run_behavior_witness :
    checkKeys [] ([] : Clipboard) = true ∧ requiresOkAlong [w2a] [] = true ∧
    multiStageRun "m3" [w2a] [] [] = mergeChildren "m3" [w2a] [] := by
  refine ⟨rfl, rfl, ?_⟩
  exact (C3_run_behavior "m3" [w2a] [] []).2 rfl rfl

/-! Claim C9: visibility of merged keys. -/

theorem multiRunFrom_append (name : String) (l₁ l₂ : List Stage) (c : Clipboard) :
    multiRunFrom name (l₁ ++ l₂) c =
      match multiRunFrom name l₁ c with
      | .error e => .error e
      | .ok c' => multiRunFrom name l₂ c' := by
  induction l₁ generalizing c with
  | nil => rfl
  | cons s rest ih =>
    simp only [List.cons_append, multiRunFrom]
    by_cases hreq : checkKeys s.requires c = true
    · simp only [hreq, if_true]
      cases hrun : s.run c with
      | error e => rfl
      | ok r =>
        cases r with
        | none => exact ih c
        | some ret =>
          dsimp only
          by_cases hp : checkKeys s.provides ret = true
          · simp only [hp, if_true]
            exact ih (updA c ret)
          · rw [if_neg hp, if_neg hp]
    · rw [if_neg hreq, if_neg hreq]

theorem multiRunFrom_mono (name : String) :
    ∀ (l : List Stage) (c c' : Clipboard), multiRunFrom name l c = .ok c' →
    ∀ k, hasA c k = true → hasA c' k = true := by
  intro l
  induction l with
  | nil =>
    intro c c' h k hk
    cases h
    exact hk
  | cons s rest ih =>
    intro c c' h k hk
    simp only [multiRunFrom] at h
    by_cases hreq : checkKeys s.requires c = true
    · rw [if_pos hreq] at h
      cases hrun : s.run c with
      | error e =>
        rw [hrun] at h
        exact Except.noConfusion h
      | ok r =>
        rw [hrun] at h
        cases r with
        | none => exact ih c c' h k hk
        | some ret =>
          dsimp only at h
          by_cases hp : checkKeys s.provides ret = true
          · rw [if_pos hp] at h
            apply ih _ _ h
            rw [hasA_updA, hk]
            rfl
          · rw [if_neg hp] at h
            exact Except.noConfusion h
    · rw [if_neg hreq] at h
      exact Except.noConfusion h

/-- C9 (counterexample): during an IterateMultiStage run, a nested child
merges the key x into the working clipboard (its delta contains x and is
merged by MultiStage.run), yet the clipboard the run hands back to the
caller does not contain x — the IterateStage write-back propagates only
the iterated keys, so a merged key is not visible in the caller's
clipboard. -/
theorem C9_merge_visibility_cx :
    (mkSimple "w9" [] [] [("x", .nat 7)]).run [("a", .nat 0)]
      = .ok (some [("x", .nat 7)]) ∧
    iterMultiStageRun "im" ["a"] [w9] [] [] [("a", .seq [.nat 0])]
      = .ok [("a", .seq [.nat 0])] ∧
    hasA [("a", Value.seq [.nat 0])] "x" = false := by
  exact ⟨rfl, rfl, rfl⟩

/-- C9 (amended): within a MultiStage run, every key of a delta merged
for a child is visible in the clipboard passed to each subsequent child
— at every later prefix of the run — and in the composite's returned
clipboard, across composite nesting (a nested composite's returned
delta is its full merged clipboard); but keys other than the iterated
keys added during an IterateStage per-element run are confined to that
element's view and are not written back to the outer clipboard. -/
theorem C9_merge_visibility : ∀ (parent : String) (pre : List Stage) (s : Stage)
    (post : List Stage) (c₀ c₁ d cfin : Clipboard) (k : Key),
    multiRunFrom parent (pre ++ s :: post) c₀ = .ok cfin →
    multiRunFrom parent pre c₀ = .ok c₁ →
    s.run c₁ = .ok (some d) →
    hasA d k = true →
    hasA cfin k = true ∧
    ∀ q1 q2, post = q1 ++ q2 →
      ∃ c₂, multiRunFrom parent (pre ++ s :: q1) c₀ = .ok c₂ ∧
        hasA c₂ k = true := by
  intro parent pre s post c₀ c₁ d cfin k h1 h2 h3 h4
  rw [multiRunFrom_append, h2] at h1
  dsimp only at h1
  simp only [multiRunFrom] at h1
  by_cases hreq : checkKeys s.requires c₁ = true
  · rw [if_pos hreq, h3] at h1
    dsimp only at h1
    by_cases hp : checkKeys s.provides d = true
    · rw [if_pos hp] at h1
      have hupd : hasA (updA c₁ d) k = true := by
        rw [hasA_updA, h4]
        simp
      constructor
      · exact multiRunFrom_mono parent post (updA c₁ d) cfin h1 k hupd
      · intro q1 q2 hq
        subst hq
        rw [multiRunFrom_append] at h1
        cases hq1 : multiRunFrom parent q1 (updA c₁ d) with
        | error e =>
          rw [hq1] at h1
          exact Except.noConfusion h1
        | ok c₂ =>
          refine ⟨c₂, ?_, multiRunFrom_mono parent q1 (updA c₁ d) c₂ hq1 k hupd⟩
          rw [multiRunFrom_append, h2]
          dsimp only
          simp only [multiRunFrom]
          rw [if_pos hreq, h3]
          dsimp only
          rw [if_pos hp]
          exact hq1
    · rw [if_neg hp] at h1
      exact Except.noConfusion h1
  · rw [if_neg hreq] at h1
    exact Except.noConfusion h1

/-- C9 (witness): a nested composite provides key x; x is visible in the
final clipboard of the enclosing run whose later child requires it. -/
theorem C9_merge_visibility_witness :
    hasA [("x", Value.nat 7)] "x" = true :=
  (C9_merge_visibility "t9" [] in9 [r9] [] [] [("x", .nat 7)] [("x", .nat 7)]
    "x" rfl rfl rfl rfl).1

/-! Lemmas about gathering the iterated sequences. -/

theorem gatherGo_ok (ks0 : List Key) (c : Clipboard) :
    ∀ (l : List Key) (acc : Dict (List Value)) (len : Option Nat)
      (a0 : Dict (List Value)) (lenOut : Option Nat),
    gatherGo ks0 c l acc len = .ok (a0, lenOut) →
    (∀ l', len = some l' → lenOut = some l') ∧
    (∀ k, k ∈ l → ∃ arr, lookupA c k = some (.seq arr) ∧
      lookupA a0 k = some arr ∧ some arr.length = lenOut) ∧
    (∀ k, k ∉ l → lookupA a0 k = lookupA acc k) := by
  intro l
  induction l with
  | nil =>
    intro acc len a0 lenOut h
    simp only [gatherGo] at h
    injection h with h'
    injection h' with h1 h2
    subst h1
    subst h2
    refine ⟨fun l' hl' => hl', ?_, fun k _ => rfl⟩
    intro k hk
    exact absurd hk (by simp)
  | cons k rest ih =>
    intro acc len a0 lenOut h
    simp only [gatherGo] at h
    cases hc : lookupA c k with
    | none =>
      rw [hc] at h
      exact Except.noConfusion h
    | some v =>
      rw [hc] at h
      cases v with
      | nat n => exact Except.noConfusion h
      | seq arr =>
        dsimp only at h
        cases len with
        | none =>
          obtain ⟨ih1, ih2, ih3⟩ := ih (setA acc k arr) (some arr.length) a0 lenOut h
          refine ⟨?_, ?_, ?_⟩
          · intro l' hl'
            exact Option.noConfusion hl'
          · intro k' hk'
            by_cases hkr : k' ∈ rest
            · exact ih2 k' hkr
            · have hkk : k' = k := by
                rcases List.mem_cons.1 hk' with h' | h'
                · exact h'
                · exact absurd h' hkr
              subst hkk
              refine ⟨arr, hc, ?_, (ih1 arr.length rfl).symm⟩
              rw [ih3 k' hkr, lookupA_setA_self]
          · intro k' hk'
            have h1 : k' ∉ rest := fun hm => hk' (List.mem_cons_of_mem k hm)
            have h2 : k' ≠ k := fun he => hk' (he ▸ List.mem_cons_self k rest)
            rw [ih3 k' h1, lookupA_setA_ne _ _ _ _ h2]
        | some l =>
          dsimp only at h
          by_cases hlen : arr.length = l
          · rw [if_pos hlen] at h
            obtain ⟨ih1, ih2, ih3⟩ := ih (setA acc k arr) (some l) a0 lenOut h
            refine ⟨?_, ?_, ?_⟩
            · intro l' hl'
              injection hl' with hl''
              rw [← hl'']
              exact ih1 l rfl
            · intro k' hk'
              by_cases hkr : k' ∈ rest
              · exact ih2 k' hkr
              · have hkk : k' = k := by
                  rcases List.mem_cons.1 hk' with h' | h'
                  · exact h'
                  · exact absurd h' hkr
                subst hkk
                refine ⟨arr, hc, ?_, ?_⟩
                · rw [ih3 k' hkr, lookupA_setA_self]
                · rw [hlen]
                  exact (ih1 l rfl).symm
            · intro k' hk'
              have h1 : k' ∉ rest := fun hm => hk' (List.mem_cons_of_mem k hm)
              have h2 : k' ≠ k := fun he => hk' (he ▸ List.mem_cons_self k rest)
              rw [ih3 k' h1, lookupA_setA_ne _ _ _ _ h2]
          · rw [if_neg hlen] at h
            exact Except.noConfusion h

theorem gatherIterate_ok (ks : List Key) (c : Clipboard)
    (arrays0 : Dict (List Value)) (l : Nat)
    (h : gatherIterate ks c = .ok (arrays0, some l)) :
    ks ≠ [] ∧
    (∀ k ∈ ks, ∃ arr, lookupA c k = some (.seq arr) ∧
      lookupA arrays0 k = some arr ∧ arr.length = l) ∧
    (∀ k, k ∉ ks → lookupA arrays0 k = none) := by
  obtain ⟨_, h2, h3⟩ := gatherGo_ok ks c ks [] none arrays0 (some l) h
  refine ⟨?_, ?_, ?_⟩
  · intro hnil
    subst hnil
    simp only [gatherIterate, gatherGo] at h
    injection h with h'
    injection h' with h1 hlen
    exact Option.noConfusion hlen
  · intro k hk
    obtain ⟨arr, hc, ha, hl⟩ := h2 k hk
    injection hl with hl'
    exact ⟨arr, hc, ha, hl'⟩
  · intro k hk
    rw [h3 k hk]
    rfl

/-! Claim C6: iteration length mismatch. -/

theorem gatherGo_mismatch (ks0 : List Key) (c : Clipboard) :
    ∀ (l : List Key) (acc : Dict (List Value)) (l0 : Nat),
    (∀ k ∈ l, ∃ arr, lookupA c k = some (.seq arr)) →
    (∃ k arr, k ∈ l ∧ lookupA c k = some (.seq arr) ∧ arr.length ≠ l0) →
    gatherGo ks0 c l acc (some l0) = .error (.lengthMismatch ks0) := by
  intro l
  induction l with
  | nil =>
    intro acc l0 _ hmis
    obtain ⟨k, arr, hk, _, _⟩ := hmis
    exact absurd hk (by simp)
  | cons k rest ih =>
    intro acc l0 hall hmis
    obtain ⟨arr, hc⟩ := hall k (List.mem_cons_self k rest)
    simp only [gatherGo, hc]
    by_cases hlen : arr.length = l0
    · rw [if_pos hlen]
      apply ih
      · intro k' hk'
        exact hall k' (List.mem_cons_of_mem k hk')
      · obtain ⟨k', arr', hk', hc', hne⟩ := hmis
        rcases List.mem_cons.1 hk' with h' | h'
        · subst h'
          rw [hc] at hc'
          injection hc' with hc''
          injection hc'' with hc3
          exact absurd (hc3 ▸ hlen) hne
        · exact ⟨k', arr', h', hc', hne⟩
    · rw [if_neg hlen]

/-- C6: an IterateStage over iterated keys whose clipboard sequences do
not all have equal length fails, before invoking the body even once
(the conclusion holds for every body), with the RuntimeError reporting
the iterated key list. -/
theorem C6_length_mismatch : ∀ (name : String) (sReq sProv ks : List Key)
    (c : Clipboard),
    checkKeys sReq c = true →
    (∀ k ∈ ks, ∃ arr, lookupA c k = some (.seq arr)) →
    (∃ k1 k2 a1 a2, k1 ∈ ks ∧ k2 ∈ ks ∧ lookupA c k1 = some (.seq a1) ∧
      lookupA c k2 = some (.seq a2) ∧ a1.length ≠ a2.length) →
    ∀ body, iterStageRun name sReq sProv ks body c
      = .error (.lengthMismatch ks) := by
  intro name sReq sProv ks c hreq hall hmis body
  have hg : gatherIterate ks c = .error (.lengthMismatch ks) := by
    obtain ⟨k1, k2, a1, a2, hk1, hk2, hc1, hc2, hne⟩ := hmis
    cases ks with
    | nil => exact absurd hk1 (by simp)
    | cons k0 rest =>
      obtain ⟨arr0, hc0⟩ := hall k0 (List.mem_cons_self k0 rest)
      simp only [gatherIterate, gatherGo, hc0]
      apply gatherGo_mismatch
      · intro k' hk'
        exact hall k' (List.mem_cons_of_mem k0 hk')
      · by_cases h1 : a1.length = arr0.length
        · refine ⟨k2, a2, ?_, hc2, ?_⟩
          · rcases List.mem_cons.1 hk2 with h' | h'
            · subst h'
              rw [hc0] at hc2
              injection hc2 with hc2'
              injection hc2' with hc2''
              exact absurd (h1.trans (congrArg List.length hc2'')) hne
            · exact h'
          · intro h2
            exact hne (h1.trans h2.symm)
        · refine ⟨k1, a1, ?_, hc1, h1⟩
          rcases List.mem_cons.1 hk1 with h' | h'
          · subst h'
            rw [hc0] at hc1
            injection hc1 with hc1'
            injection hc1' with hc1''
            exact absurd (congrArg List.length hc1'').symm h1
          · exact h'
  simp only [iterStageRun, hreq, if_true, hg]

/-- C6 (witness): two keys with sequences of lengths 1 and 0 make the
run fail with the mismatch error for any body, here the trivial one. -/
theorem C6_length_mismatch_witness :
    iterStageRun "i6" [] [] ["a", "b"] (fun _ => .ok none)
      [("a", .seq [.nat 0]), ("b", .seq [])]
      = .error (.lengthMismatch ["a", "b"]) := by
  apply C6_length_mismatch "i6" [] [] ["a", "b"]
    [("a", .seq [.nat 0]), ("b", .seq [])] rfl
  · intro k hk
    rcases List.mem_cons.1 hk with h' | h'
    · subst h'
      exact ⟨[.nat 0], rfl⟩
    · rcases List.mem_cons.1 h' with h'' | h''
      · subst h''
        exact ⟨[], rfl⟩
      · exact absurd h'' (by simp)
  · exact ⟨"a", "b", [.nat 0], [], by simp, by simp, rfl, rfl, by simp⟩

/-! Claim C8: zero-length iteration. -/

theorem putBack_id (ks : List Key) :
    ∀ (c : Clipboard) (arrays : Dict (List Value)),
    (∀ k ∈ ks, ∃ arr, lookupA arrays k = some arr ∧
      lookupA c k = some (.seq arr)) →
    putBack ks arrays c = c := by
  induction ks with
  | nil => intro c arrays _; rfl
  | cons k rest ih =>
    intro c arrays hall
    obtain ⟨arr, ha, hc⟩ := hall k (List.mem_cons_self k rest)
    simp only [putBack, List.foldl_cons, ha]
    rw [setA_eq_of_lookup c k (.seq arr) hc]
    exact ih c arrays (fun k' hk' => hall k' (List.mem_cons_of_mem k hk'))

/-- C8: an IterateStage whose iterated sequences all have length zero
invokes the body zero times (the conclusion holds for every body) and
returns the clipboard unchanged. -/
theorem C8_zero_length : ∀ (name : String) (sReq sProv ks : List Key)
    (c : Clipboard) (arrays0 : Dict (List Value)),
    checkKeys sReq c = true →
    checkKeys sProv c = true →
    gatherIterate ks c = .ok (arrays0, some 0) →
    ∀ body, iterStageRun name sReq sProv ks body c = .ok c := by
  intro name sReq sProv ks c arrays0 hreq hprov hg body
  obtain ⟨_, h2, _⟩ := gatherIterate_ok ks c arrays0 0 hg
  have hpb : putBack ks arrays0 c = c := by
    apply putBack_id
    intro k hk
    obtain ⟨arr, hc, ha, _⟩ := h2 k hk
    exact ⟨arr, ha, hc⟩
  simp only [iterStageRun, hreq, if_true, hg]
  have hrange : List.range 0 = ([] : List Nat) := rfl
  rw [hrange]
  simp only [iterLoop, hpb, hprov, if_true]

/-- C8 (witness): a concrete zero-length iteration returns the clipboard
unchanged for a body that would otherwise fail. -/
theorem C8_zero_length_witness :
    iterStageRun "i8" [] [] ["a"] (fun _ => .error .notImplemented)
      [("a", .seq [])] = .ok [("a", .seq [])] := by
  exact C8_zero_length "i8" [] [] ["a"] [("a", .seq [])] [("a", [])]
    rfl rfl rfl (fun _ => .error .notImplemented)

/-! Claim C10: the write-back step is strict. -/

theorem mkView_ok :
    ∀ (ks : List Key) (arrays : Dict (List Value)) (clip : Clipboard) (i : Nat),
    (∀ k ∈ ks, ∃ arr, lookupA arrays k = some arr ∧ i < arr.length) →
    mkView i ks arrays clip = .ok (viewAt ks arrays clip i) := by
  intro ks
  induction ks with
  | nil =>
    intro arrays clip i _
    rfl
  | cons k rest ih =>
    intro arrays clip i hall
    obtain ⟨arr, ha, hlen⟩ := hall k (List.mem_cons_self k rest)
    have hg : arr.get? i = some (arr.get ⟨i, hlen⟩) := List.get?_eq_get hlen
    simp only [mkView, viewAt, List.foldl_cons, ha, hg]
    exact ih arrays (setA clip k (arr.get ⟨i, hlen⟩)) i
      (fun k' hk' => hall k' (List.mem_cons_of_mem k hk'))

theorem writeBack_missing (i : Nat) (d : Clipboard) :
    ∀ (ks : List Key) (arrays : Dict (List Value)),
    (∀ k ∈ ks, ∃ arr, lookupA arrays k = some arr) →
    (∃ k ∈ ks, hasA d k = false) →
    ∃ e, writeBack i ks (some d) arrays = .error e := by
  intro ks
  induction ks with
  | nil =>
    intro arrays _ hmis
    obtain ⟨k, hk, _⟩ := hmis
    exact absurd hk (by simp)
  | cons k rest ih =>
    intro arrays hall hmis
    obtain ⟨arr, ha⟩ := hall k (List.mem_cons_self k rest)
    simp only [writeBack, ha]
    cases hd : lookupA d k with
    | none => exact ⟨.keyError k, rfl⟩
    | some v =>
      dsimp only
      by_cases hi : i < arr.length
      · rw [if_pos hi]
        apply ih
        · intro k' hk'
          by_cases hkk : k' = k
          · subst hkk
            exact ⟨arr.set i v, lookupA_setA_self arrays k' (arr.set i v)⟩
          · obtain ⟨arr', ha'⟩ := hall k' (List.mem_cons_of_mem k hk')
            exact ⟨arr', by rw [lookupA_setA_ne arrays k k' (arr.set i v) hkk]; exact ha'⟩
        · obtain ⟨k', hk', hdk⟩ := hmis
          rcases List.mem_cons.1 hk' with h' | h'
          · subst h'
            simp [hasA, hd] at hdk
          · exact ⟨k', h', hdk⟩
      · rw [if_neg hi]
        exact ⟨.keyError k, rfl⟩

/-- C10: for an IterateStage run with at least one iterated key and a
nonzero iteration length, if the body's first invocation returns None
(as IgnoredStage.run does and MultiStage tolerates) or a mapping
missing an iterated key, the run fails with an error instead of
completing with the sequence element unchanged. -/
theorem C10_writeback_strict : ∀ (name : String) (sReq sProv ks : List Key)
    (body : Clipboard → Except Err (Option Clipboard)) (c : Clipboard)
    (arrays0 : Dict (List Value)) (l : Nat),
    checkKeys sReq c = true →
    gatherIterate ks c = .ok (arrays0, some l) →
    0 < l →
    (body (viewAt ks arrays0 c 0) = .ok none ∨
      (∃ d, body (viewAt ks arrays0 c 0) = .ok (some d) ∧
        ∃ k ∈ ks, hasA d k = false)) →
    ∃ e, iterStageRun name sReq sProv ks body c = .error e := by
  intro name sReq sProv ks body c arrays0 l hreq hg hl hbad
  obtain ⟨hne, h2, _⟩ := gatherIterate_ok ks c arrays0 l hg
  have hinv : ∀ k ∈ ks, ∃ arr, lookupA arrays0 k = some arr ∧ 0 < arr.length := by
    intro k hk
    obtain ⟨arr, _, ha, hlen⟩ := h2 k hk
    exact ⟨arr, ha, hlen ▸ hl⟩
  have hrange : List.range l = 0 :: List.range' 1 (l - 1) := by
    rw [List.range_eq_range']
    cases l with
    | zero => exact absurd hl (by omega)
    | succ m => rfl
  simp only [iterStageRun, hreq, if_true, hg, hrange, iterLoop]
  rw [mkView_ok ks arrays0 c 0 hinv]
  dsimp only
  rcases hbad with hb | ⟨d, hb, k, hk, hdk⟩
  · rw [hb]
    dsimp only
    cases ks with
    | nil => exact absurd rfl hne
    | cons k0 rest => exact ⟨.noneGet k0, rfl⟩
  · rw [hb]
    dsimp only
    obtain ⟨e, he⟩ := writeBack_missing 0 d ks arrays0
      (fun k' hk' => (hinv k' hk').imp (fun arr h => h.1)) ⟨k, hk, hdk⟩
    rw [he]
    exact ⟨e, rfl⟩

/-- C10 (witness): a body returning None makes a length-1 iteration
fail. -/
theorem C10_writeback_strict_witness :
    ∃ e, iterStageRun "i10" [] [] ["a"] (fun _ => .ok none)
      [("a", .seq [.nat 5])] = .error e :=
  C10_writeback_strict "i10" [] [] ["a"] (fun _ => .ok none)
    [("a", .seq [.nat 5])] [("a", [.nat 5])] 1 rfl rfl (by omega) (Or.inl rfl)

/-! Support lemmas for the IterateStage characterization. -/

theorem viewAt_congr (i : Nat) :
    ∀ (ks : List Key) (ar1 ar2 : Dict (List Value)) (c : Clipboard),
    (∀ k ∈ ks, ∃ a1 a2, lookupA ar1 k = some a1 ∧ lookupA ar2 k = some a2 ∧
      a1.get? i = a2.get? i) →
    viewAt ks ar1 c i = viewAt ks ar2 c i := by
  intro ks
  induction ks with
  | nil => intro ar1 ar2 c _; rfl
  | cons k rest ih =>
    intro ar1 ar2 c hall
    obtain ⟨a1, a2, h1, h2, hg⟩ := hall k (List.mem_cons_self k rest)
    simp only [viewAt, List.foldl_cons, h1, h2, ← hg]
    cases a1.get? i with
    | none =>
      exact ih ar1 ar2 c (fun k' hk' => hall k' (List.mem_cons_of_mem k hk'))
    | some v =>
      exact ih ar1 ar2 (setA c k v) (fun k' hk' => hall k' (List.mem_cons_of_mem k hk'))

theorem writeBack_ok (i : Nat) (d : Clipboard) :
    ∀ (ks : List Key) (arrays : Dict (List Value)),
    ks.Nodup →
    (∀ k ∈ ks, ∃ arr, lookupA arrays k = some arr ∧ i < arr.length) →
    (∀ k ∈ ks, hasA d k = true) →
    ∃ arrays', writeBack i ks (some d) arrays = .ok arrays' ∧
      (∀ k, k ∉ ks → lookupA arrays' k = lookupA arrays k) ∧
      (∀ k ∈ ks, ∀ arr, lookupA arrays k = some arr →
        lookupA arrays' k = some (arr.set i (valAt d k))) := by
  intro ks
  induction ks with
  | nil =>
    intro arrays _ _ _
    refine ⟨arrays, rfl, fun k _ => rfl, fun k hk => absurd hk (by simp)⟩
  | cons k rest ih =>
    intro arrays hnodup hall hd
    obtain ⟨arr, ha, hlen⟩ := hall k (List.mem_cons_self k rest)
    have hkrest : k ∉ rest := (List.nodup_cons.1 hnodup).1
    have hdk : hasA d k = true := hd k (List.mem_cons_self k rest)
    obtain ⟨v, hv⟩ := Option.isSome_iff_exists.1 hdk
    have hval : valAt d k = v := by
      simp only [valAt, hv]
      rfl
    simp only [writeBack, ha, hv]
    rw [if_pos hlen]
    have hall' : ∀ k' ∈ rest, ∃ arr', lookupA (setA arrays k (arr.set i v)) k'
        = some arr' ∧ i < arr'.length := by
      intro k' hk'
      have hne : k' ≠ k := fun he => hkrest (he ▸ hk')
      obtain ⟨arr', ha', hlen'⟩ := hall k' (List.mem_cons_of_mem k hk')
      exact ⟨arr', by rw [lookupA_setA_ne arrays k k' (arr.set i v) hne]; exact ha', hlen'⟩
    obtain ⟨arrays', heq, hout, hin⟩ := ih (setA arrays k (arr.set i v))
      (List.nodup_cons.1 hnodup).2 hall'
      (fun k' hk' => hd k' (List.mem_cons_of_mem k hk'))
    refine ⟨arrays', heq, ?_, ?_⟩
    · intro k' hk'
      have h1 : k' ∉ rest := fun hm => hk' (List.mem_cons_of_mem k hm)
      have h2 : k' ≠ k := fun he => hk' (he ▸ List.mem_cons_self k rest)
      rw [hout k' h1, lookupA_setA_ne arrays k k' (arr.set i v) h2]
    · intro k' hk' arr0 ha0
      rcases List.mem_cons.1 hk' with h' | h'
      · subst h'
        rw [ha0] at ha
        injection ha with ha'
        subst ha'
        rw [hout k' hkrest, lookupA_setA_self, hval]
      · have hne : k' ≠ k := fun he => hkrest (he ▸ h')
        apply hin k' h' arr0
        rw [lookupA_setA_ne arrays k k' (arr.set i v) hne]
        exact ha0

theorem putBack_char (arrays : Dict (List Value)) :
    ∀ (ks : List Key) (c : Clipboard),
    ks.Nodup →
    (∀ k ∈ ks, ∃ arr, lookupA arrays k = some arr) →
    (∀ k, k ∉ ks → lookupA (putBack ks arrays c) k = lookupA c k) ∧
    (∀ k ∈ ks, ∀ arr, lookupA arrays k = some arr →
      lookupA (putBack ks arrays c) k = some (.seq arr)) := by
  intro ks
  induction ks with
  | nil =>
    intro c _ _
    exact ⟨fun k _ => rfl, fun k hk => absurd hk (by simp)⟩
  | cons k rest ih =>
    intro c hnodup hall
    obtain ⟨arr, ha⟩ := hall k (List.mem_cons_self k rest)
    have hkrest : k ∉ rest := (List.nodup_cons.1 hnodup).1
    have hstep : putBack (k :: rest) arrays c
        = putBack rest arrays (setA c k (.seq arr)) := by
      simp only [putBack, List.foldl_cons, ha]
    obtain ⟨hout, hin⟩ := ih (setA c k (.seq arr)) (List.nodup_cons.1 hnodup).2
      (fun k' hk' => hall k' (List.mem_cons_of_mem k hk'))
    rw [hstep]
    refine ⟨?_, ?_⟩
    · intro k' hk'
      have h1 : k' ∉ rest := fun hm => hk' (List.mem_cons_of_mem k hm)
      have h2 : k' ≠ k := fun he => hk' (he ▸ List.mem_cons_self k rest)
      rw [hout k' h1, lookupA_setA_ne c k k' (.seq arr) h2]
    · intro k' hk' arr0 ha0
      rcases List.mem_cons.1 hk' with h' | h'
      · subst h'
        rw [ha0] at ha
        injection ha with ha'
        subst ha'
        rw [hout k' hkrest, lookupA_setA_self]
      · exact hin k' h' arr0 ha0

theorem checkKeys_congr (l : List Key) (x y : Clipboard)
    (h : ∀ k, hasA x k = hasA y k) : checkKeys l x = checkKeys l y := by
  induction l with
  | nil => rfl
  | cons k rest ih =>
    simp only [checkKeys, List.all_cons] at ih ⊢
    rw [h k, ih]

theorem foldl_set_length (f : Nat → Value) :
    ∀ (idxs : List Nat) (arr : List Value),
    (idxs.foldl (fun a i => a.set i (f i)) arr).length = arr.length := by
  intro idxs
  induction idxs with
  | nil => intro arr; rfl
  | cons i rest ih =>
    intro arr
    rw [List.foldl_cons, ih, List.length_set]

theorem foldl_set_get? (f : Nat → Value) :
    ∀ (idxs : List Nat) (arr : List Value) (j : Nat),
    (∀ i ∈ idxs, i < arr.length) →
    ((idxs.foldl (fun a i => a.set i (f i)) arr).get? j
      = if j ∈ idxs then some (f j) else arr.get? j) := by
  intro idxs
  induction idxs with
  | nil =>
    intro arr j _
    simp
  | cons i rest ih =>
    intro arr j hbound
    rw [List.foldl_cons, ih (arr.set i (f i)) j
      (fun i' hi' => by rw [List.length_set]; exact hbound i' (List.mem_cons_of_mem i hi'))]
    by_cases hjr : j ∈ rest
    · rw [if_pos hjr, if_pos (List.mem_cons_of_mem i hjr)]
    · rw [if_neg hjr]
      by_cases hji : j = i
      · subst hji
        rw [if_pos (List.mem_cons_self j rest)]
        exact List.get?_set_eq_of_lt (f j) (hbound j (List.mem_cons_self j rest))
      · have hnm : j ∉ i :: rest := by
          intro hm
          rcases List.mem_cons.1 hm with h' | h'
          · exact hji h'
          · exact hjr h'
        rw [if_neg hnm]
        exact List.get?_set_ne (f i) arr (fun he => hji he.symm)

/-! The per-index loop with a total body: trace and final sequences. -/

theorem iterLoopTr_run (ks : List Key) (B : Clipboard → Clipboard)
    (c : Clipboard) (arrays0 : Dict (List Value))
    (hnodup : ks.Nodup)
    (hBkeys : ∀ clip k, k ∈ ks → hasA (B clip) k = true) :
    ∀ (idxs : List Nat) (arrays : Dict (List Value)),
    idxs.Nodup →
    (∀ k ∈ ks, ∃ arr0 arr, lookupA arrays0 k = some arr0 ∧
      lookupA arrays k = some arr ∧ arr.length = arr0.length ∧
      (∀ i ∈ idxs, i < arr.length ∧ arr.get? i = arr0.get? i)) →
    ∃ arrays',
      iterLoopTr (fun clip => Except.ok (some (B clip), [clip])) ks c idxs arrays
        = .ok (arrays', idxs.map (fun i => (i, viewAt ks arrays0 c i))) ∧
      (∀ k, k ∉ ks → lookupA arrays' k = lookupA arrays k) ∧
      (∀ k ∈ ks, ∀ arr, lookupA arrays k = some arr →
        lookupA arrays' k = some (idxs.foldl
          (fun a j => a.set j (valAt (B (viewAt ks arrays0 c j)) k)) arr)) := by
  intro idxs
  induction idxs with
  | nil =>
    intro arrays _ _
    exact ⟨arrays, rfl, fun k _ => rfl, fun k hk arr ha => by simpa using ha⟩
  | cons i rest ih =>
    intro arrays hnodupI hinv
    have hview_pre : ∀ k ∈ ks, ∃ arr, lookupA arrays k = some arr ∧
        i < arr.length := by
      intro k hk
      obtain ⟨arr0, arr, _, ha, _, hi⟩ := hinv k hk
      exact ⟨arr, ha, (hi i (List.mem_cons_self i rest)).1⟩
    have hmk : mkView i ks arrays c = .ok (viewAt ks arrays c i) :=
      mkView_ok ks arrays c i hview_pre
    have hvc : viewAt ks arrays c i = viewAt ks arrays0 c i := by
      apply viewAt_congr
      intro k hk
      obtain ⟨arr0, arr, ha0, ha, _, hi⟩ := hinv k hk
      exact ⟨arr, arr0, ha, ha0, (hi i (List.mem_cons_self i rest)).2⟩
    obtain ⟨arrays1, hwb, hwout, hwin⟩ :=
      writeBack_ok i (B (viewAt ks arrays0 c i)) ks arrays hnodup hview_pre
        (fun k hk => hBkeys _ k hk)
    have hirest : i ∉ rest := (List.nodup_cons.1 hnodupI).1
    have hinv' : ∀ k ∈ ks, ∃ arr0 arr, lookupA arrays0 k = some arr0 ∧
        lookupA arrays1 k = some arr ∧ arr.length = arr0.length ∧
        (∀ j ∈ rest, j < arr.length ∧ arr.get? j = arr0.get? j) := by
      intro k hk
      obtain ⟨arr0, arr, ha0, ha, hlen, hi⟩ := hinv k hk
      refine ⟨arr0, arr.set i (valAt (B (viewAt ks arrays0 c i)) k),
        ha0, hwin k hk arr ha, by rw [List.length_set]; exact hlen, ?_⟩
      intro j hj
      have hji : j ≠ i := fun he => hirest (he ▸ hj)
      constructor
      · rw [List.length_set]
        exact (hi j (List.mem_cons_of_mem i hj)).1
      · rw [List.get?_set_ne _ arr (fun he => hji he.symm)]
        exact (hi j (List.mem_cons_of_mem i hj)).2
    obtain ⟨arrays', hloop, hout, hin⟩ :=
      ih arrays1 (List.nodup_cons.1 hnodupI).2 hinv'
    refine ⟨arrays', ?_, ?_, ?_⟩
    · simp only [iterLoopTr, hmk, hvc, hwb, hloop]
      rfl
    · intro k hk
      rw [hout k hk, hwout k hk]
    · intro k hk arr ha
      rw [List.foldl_cons]
      exact hin k hk (arr.set i (valAt (B (viewAt ks arrays0 c i)) k))
        (hwin k hk arr ha)

/-! The ghost-instrumented runs project to the plain runs. -/

theorem iterLoopTr_fst (body : Clipboard → Except Err (Option Clipboard))
    (ks : List Key) (c : Clipboard) :
    ∀ (idxs : List Nat) (arrays : Dict (List Value)),
    iterLoop body ks c idxs arrays =
      (iterLoopTr (fun clip => (body clip).map (fun r => (r, [clip])))
        ks c idxs arrays).map Prod.fst := by
  intro idxs
  induction idxs with
  | nil => intro arrays; rfl
  | cons i rest ih =>
    intro arrays
    simp only [iterLoop, iterLoopTr]
    cases hmk : mkView i ks arrays c with
    | error e => rfl
    | ok clip =>
      dsimp only
      cases hb : body clip with
      | error e => rfl
      | ok ret =>
        rw [show ((Except.ok ret : Except Err (Option Clipboard)).map
            (fun r => (r, [clip])))
          = (Except.ok (ret, [clip]) :
              Except Err (Option Clipboard × List Clipboard)) from rfl]
        dsimp only
        cases hwb : writeBack i ks ret arrays with
        | error e => rfl
        | ok arrays1 =>
          dsimp only
          rw [ih arrays1]
          cases hloop : iterLoopTr
              (fun clip => (body clip).map (fun r => (r, [clip])))
              ks c rest arrays1 with
          | error e => rfl
          | ok pr => rfl

theorem iterStageRun_fst (name : String) (sReq sProv ks : List Key)
    (body : Clipboard → Except Err (Option Clipboard)) (c : Clipboard) :
    iterStageRun name sReq sProv ks body c
      = (iterStageRunTr name sReq sProv ks body c).map Prod.fst := by
  simp only [iterStageRun, iterStageRunTr]
  by_cases hreq : checkKeys sReq c = true
  · rw [if_pos hreq, if_pos hreq]
    cases hg : gatherIterate ks c with
    | error e => rfl
    | ok pr =>
      obtain ⟨arrays, len⟩ := pr
      dsimp only
      cases len with
      | none => rfl
      | some l =>
        dsimp only
        rw [iterLoopTr_fst body ks c (List.range l) arrays]
        cases hloop : iterLoopTr
            (fun clip => (body clip).map (fun r => (r, [clip])))
            ks c (List.range l) arrays with
        | error e => rfl
        | ok pr2 =>
          obtain ⟨arrays', tr⟩ := pr2
          dsimp only [Except.map]
          by_cases hprov : checkKeys sProv (putBack ks arrays' c) = true
          · rw [if_pos hprov, if_pos hprov]
          · rw [if_neg hprov, if_neg hprov]
  · rw [if_neg hreq, if_neg hreq]
    rfl

/-! Claim C5: the IterateStage per-element semantics. -/

/-- C5: for an IterateStage over nodup iterated keys whose sequences
all have length l, with a total body B that binds every iterated key,
run invokes the body exactly l times — the i-th invocation on a copy of
the clipboard with each iterated key rebound to that sequence's element
at index i (the recorded trace is exactly those l views in index
order) — and afterwards each iterated sequence holds at every index
exactly the value the body bound to that key in that index's view,
while non-iterated keys are unchanged. -/
theorem C5_iterate_semantics : ∀ (name : String) (sReq sProv ks : List Key)
    (B : Clipboard → Clipboard) (c : Clipboard)
    (arrays0 : Dict (List Value)) (l : Nat),
    ks.Nodup →
    checkKeys sReq c = true →
    checkKeys sProv c = true →
    gatherIterate ks c = .ok (arrays0, some l) →
    (∀ clip k, k ∈ ks → hasA (B clip) k = true) →
    ∃ final,
      iterStageRunTr name sReq sProv ks (fun clip => .ok (some (B clip))) c
        = .ok (final, (List.range l).map (fun i => (i, viewAt ks arrays0 c i))) ∧
      iterStageRun name sReq sProv ks (fun clip => .ok (some (B clip))) c
        = .ok final ∧
      (∀ k ∈ ks, ∃ sq, lookupA final k = some (.seq sq) ∧ sq.length = l ∧
        ∀ i, i < l → sq.get? i = some (valAt (B (viewAt ks arrays0 c i)) k)) ∧
      (∀ k, k ∉ ks → lookupA final k = lookupA c k) := by
  intro name sReq sProv ks B c arrays0 l hnodup hreq hprov hg hB
  obtain ⟨hne, h2, _⟩ := gatherIterate_ok ks c arrays0 l hg
  have hinv0 : ∀ k ∈ ks, ∃ arr0 arr, lookupA arrays0 k = some arr0 ∧
      lookupA arrays0 k = some arr ∧ arr.length = arr0.length ∧
      (∀ i ∈ List.range l, i < arr.length ∧ arr.get? i = arr0.get? i) := by
    intro k hk
    obtain ⟨arr, _, ha, hlen⟩ := h2 k hk
    exact ⟨arr, arr, ha, ha, rfl,
      fun i hi => ⟨by rw [hlen]; exact List.mem_range.1 hi, rfl⟩⟩
  obtain ⟨arrays', hloop, hout, hin⟩ := iterLoopTr_run ks B c arrays0 hnodup hB
    (List.range l) arrays0 (List.nodup_range l) hinv0
  have harr' : ∀ k ∈ ks, ∃ arr, lookupA arrays' k = some arr := by
    intro k hk
    obtain ⟨arr, _, ha, _⟩ := h2 k hk
    exact ⟨_, hin k hk arr ha⟩
  obtain ⟨hpout, hpin⟩ := putBack_char arrays' ks c hnodup harr'
  have hhas : ∀ k', hasA (putBack ks arrays' c) k' = hasA c k' := by
    intro k'
    by_cases hk' : k' ∈ ks
    · obtain ⟨arr, hc', _, _⟩ := h2 k' hk'
      obtain ⟨arrB, haB⟩ := harr' k' hk'
      rw [hasA, hasA, hpin k' hk' arrB haB, hc']
      rfl
    · rw [hasA, hasA, hpout k' hk']
  have hprovF : checkKeys sProv (putBack ks arrays' c) = true := by
    rw [checkKeys_congr sProv (putBack ks arrays' c) c hhas]
    exact hprov
  have hrunTr : iterStageRunTr name sReq sProv ks
      (fun clip => .ok (some (B clip))) c
        = .ok (putBack ks arrays' c,
          (List.range l).map (fun i => (i, viewAt ks arrays0 c i))) := by
    simp only [iterStageRunTr, hreq, if_true, hg]
    have hwrap : (fun clip =>
        ((fun clip => (Except.ok (some (B clip)) :
          Except Err (Option Clipboard))) clip).map (fun r => (r, [clip])))
        = (fun clip => (Except.ok (some (B clip), [clip]) :
            Except Err (Option Clipboard × List Clipboard))) := rfl
    rw [hwrap, hloop]
    dsimp only
    rw [if_pos hprovF]
  refine ⟨putBack ks arrays' c, hrunTr, ?_, ?_, ?_⟩
  · rw [iterStageRun_fst, hrunTr]
    rfl
  · intro k hk
    obtain ⟨arr, _, ha, hlen⟩ := h2 k hk
    have hbound : ∀ i ∈ List.range l, i < arr.length := by
      intro i hi
      rw [hlen]
      exact List.mem_range.1 hi
    refine ⟨(List.range l).foldl
      (fun a j => a.set j (valAt (B (viewAt ks arrays0 c j)) k)) arr,
      hpin k hk _ (hin k hk arr ha), ?_, ?_⟩
    · rw [foldl_set_length, hlen]
    · intro i hi
      rw [foldl_set_get? _ (List.range l) arr i hbound,
        if_pos (List.mem_range.2 hi)]
  · intro k hk
    exact hpout k hk

/-- C5 (witness): a two-key length-3 iteration with a constant body; the
trace is the three index views and both sequences end up holding the
body's written values at every index. -/
theorem C5_iterate_semantics_witness :
    ∃ final,
      iterStageRunTr "i5" [] [] ["a", "b"] (fun clip => .ok (some (b5 clip))) c5c
        = .ok (final,
            (List.range 3).map (fun i => (i, viewAt ["a", "b"] a5c c5c i))) ∧
      iterStageRun "i5" [] [] ["a", "b"] (fun clip => .ok (some (b5 clip))) c5c
        = .ok final ∧
      (∀ k ∈ ["a", "b"], ∃ sq, lookupA final k = some (.seq sq) ∧
        sq.length = 3 ∧
        ∀ i, i < 3 →
          sq.get? i = some (valAt (b5 (viewAt ["a", "b"] a5c c5c i)) k)) ∧
      (∀ k, k ∉ ["a", "b"] → lookupA final k = lookupA c5c k) := by
  apply C5_iterate_semantics "i5" [] [] ["a", "b"] b5 c5c a5c 3
  · decide
  · rfl
  · rfl
  · rfl
  · intro clip k hk
    rcases List.mem_cons.1 hk with h' | h'
    · subst h'
      rfl
    · rcases List.mem_cons.1 h' with h'' | h''
      · subst h''
        rfl
      · exact absurd h'' (by simp)

/-! Claim C4: interleaving of IterateMultiStage. -/

theorem multiRunFromTr_fst (parent : String) :
    ∀ (stages : List Stage) (c : Clipboard) (j : Nat),
    multiRunFrom parent stages c
      = (multiRunFromTr parent stages c j).map Prod.fst := by
  intro stages
  induction stages with
  | nil => intro c j; rfl
  | cons s rest ih =>
    intro c j
    simp only [multiRunFrom, multiRunFromTr]
    by_cases hreq : checkKeys s.requires c = true
    · rw [if_pos hreq, if_pos hreq]
      cases hrun : s.run c with
      | error e => rfl
      | ok r =>
        cases r with
        | none =>
          dsimp only
          rw [ih c (j + 1)]
          cases hrec : multiRunFromTr parent rest c (j + 1) with
          | error e => rfl
          | ok pr => rfl
        | some ret =>
          dsimp only
          by_cases hp : checkKeys s.provides ret = true
          · rw [if_pos hp, if_pos hp, ih (updA c ret) (j + 1)]
            cases hrec : multiRunFromTr parent rest (updA c ret) (j + 1) with
            | error e => rfl
            | ok pr => rfl
          · rw [if_neg hp, if_neg hp]
            rfl
    · rw [if_neg hreq, if_neg hreq]
      rfl

theorem iterLoopTr_fst_gen {τ : Type}
    (body : Clipboard → Except Err (Option Clipboard))
    (bodyTr : Clipboard → Except Err (Option Clipboard × List τ))
    (hb : ∀ clip, body clip = (bodyTr clip).map Prod.fst)
    (ks : List Key) (c : Clipboard) :
    ∀ (idxs : List Nat) (arrays : Dict (List Value)),
    iterLoop body ks c idxs arrays
      = (iterLoopTr bodyTr ks c idxs arrays).map Prod.fst := by
  intro idxs
  induction idxs with
  | nil => intro arrays; rfl
  | cons i rest ih =>
    intro arrays
    simp only [iterLoop, iterLoopTr]
    cases hmk : mkView i ks arrays c with
    | error e => rfl
    | ok clip =>
      dsimp only
      rw [hb clip]
      cases hbt : bodyTr clip with
      | error e => rfl
      | ok pr =>
        obtain ⟨ret, t⟩ := pr
        dsimp only [Except.map]
        cases hwb : writeBack i ks ret arrays with
        | error e => rfl
        | ok arrays1 =>
          dsimp only
          rw [ih arrays1]
          cases hloop : iterLoopTr bodyTr ks c rest arrays1 with
          | error e => rfl
          | ok pr2 => rfl

theorem iterMultiStageRun_fst (name : String) (ks : List Key)
    (stages : List Stage) (ownReq ownProv : List Key) (c : Clipboard) :
    iterMultiStageRun name ks stages ownReq ownProv c
      = (iterMultiStageRunTr name ks stages ownReq ownProv c).map Prod.fst := by
  have hb : ∀ clip,
      (multiStageRun name stages (deriveContract stages ownReq ownProv).1 clip).map
          (some : Clipboard → Option Clipboard)
        = ((fun clip =>
            if checkKeys (deriveContract stages ownReq ownProv).1 clip then
              match multiRunFromTr name stages clip 0 with
              | Except.error e => Except.error e
              | Except.ok (c', t) => Except.ok (some c', t)
            else Except.error (Err.requireNotMet name)) clip).map Prod.fst := by
    intro clip
    by_cases hck : checkKeys (deriveContract stages ownReq ownProv).1 clip = true
    · simp only [multiStageRun, hck, if_true]
      rw [multiRunFromTr_fst name stages clip 0]
      cases hrec : multiRunFromTr name stages clip 0 with
      | error e => rfl
      | ok pr => rfl
    · simp only [multiStageRun, hck, if_false]
      rfl
  simp only [iterMultiStageRun, iterStageRun, iterMultiStageRunTr]
  by_cases hreq : checkKeys (deriveContract stages ownReq ownProv).1 c = true
  · rw [if_pos hreq, if_pos hreq]
    cases hg : gatherIterate ks c with
    | error e => rfl
    | ok pr =>
      obtain ⟨arrays, len⟩ := pr
      dsimp only
      cases len with
      | none => rfl
      | some l =>
        dsimp only
        rw [iterLoopTr_fst_gen _ _ hb ks c (List.range l) arrays]
        cases hloop : iterLoopTr
            (fun clip =>
              if checkKeys (deriveContract stages ownReq ownProv).1 clip then
                match multiRunFromTr name stages clip 0 with
                | Except.error e => Except.error e
                | Except.ok (c', t) => Except.ok (some c', t)
              else Except.error (Err.requireNotMet name))
            ks c (List.range l) arrays with
        | error e => rfl
        | ok pr2 =>
          obtain ⟨arrays', tr⟩ := pr2
          dsimp only [Except.map]
          by_cases hprov :
              checkKeys (deriveContract stages ownReq ownProv).2 (putBack ks arrays' c) = true
          · rw [if_pos hprov, if_pos hprov]
          · rw [if_neg hprov, if_neg hprov]
  · rw [if_neg hreq, if_neg hreq]
    rfl

theorem multiRunFromTr_trace (parent : String) :
    ∀ (stages : List Stage) (c : Clipboard) (j : Nat) (c' : Clipboard)
      (t : List Nat),
    multiRunFromTr parent stages c j = .ok (c', t) →
    t = List.range' j stages.length := by
  intro stages
  induction stages with
  | nil =>
    intro c j c' t h
    injection h with h'
    injection h' with h1 h2
    rw [← h2]
    rfl
  | cons s rest ih =>
    intro c j c' t h
    simp only [multiRunFromTr] at h
    by_cases hreq : checkKeys s.requires c = true
    · rw [if_pos hreq] at h
      cases hrun : s.run c with
      | error e =>
        rw [hrun] at h
        exact Except.noConfusion h
      | ok r =>
        rw [hrun] at h
        cases r with
        | none =>
          dsimp only at h
          cases hrec : multiRunFromTr parent rest c (j + 1) with
          | error e =>
            rw [hrec] at h
            exact Except.noConfusion h
          | ok pr =>
            obtain ⟨c'', t''⟩ := pr
            rw [hrec] at h
            dsimp only at h
            injection h with h'
            injection h' with h1 h2
            rw [← h2, ih c (j + 1) c'' t'' hrec]
            simp [List.range'_succ]
        | some ret =>
          dsimp only at h
          by_cases hp : checkKeys s.provides ret = true
          · rw [if_pos hp] at h
            cases hrec : multiRunFromTr parent rest (updA c ret) (j + 1) with
            | error e =>
              rw [hrec] at h
              exact Except.noConfusion h
            | ok pr =>
              obtain ⟨c'', t''⟩ := pr
              rw [hrec] at h
              dsimp only at h
              injection h with h'
              injection h' with h1 h2
              rw [← h2, ih (updA c ret) (j + 1) c'' t'' hrec]
              simp [List.range'_succ]
          · rw [if_neg hp] at h
            exact Except.noConfusion h
    · rw [if_neg hreq] at h
      exact Except.noConfusion h

theorem iterLoopTr_trace {τ : Type}
    (bodyTr : Clipboard → Except Err (Option Clipboard × List τ))
    (ks : List Key) (c : Clipboard) (T : List τ)
    (hbody : ∀ clip r t, bodyTr clip = .ok (r, t) → t = T) :
    ∀ (idxs : List Nat) (arrays arrays' : Dict (List Value))
      (tr : List (Nat × τ)),
    iterLoopTr bodyTr ks c idxs arrays = .ok (arrays', tr) →
    tr = List.flatten (idxs.map (fun i => T.map (fun x => (i, x)))) := by
  intro idxs
  induction idxs with
  | nil =>
    intro arrays arrays' tr h
    injection h with h'
    injection h' with h1 h2
    rw [← h2]
    rfl
  | cons i rest ih =>
    intro arrays arrays' tr h
    simp only [iterLoopTr] at h
    cases hmk : mkView i ks arrays c with
    | error e =>
      rw [hmk] at h
      exact Except.noConfusion h
    | ok clip =>
      rw [hmk] at h
      dsimp only at h
      cases hbt : bodyTr clip with
      | error e =>
        rw [hbt] at h
        exact Except.noConfusion h
      | ok pr =>
        obtain ⟨ret, t⟩ := pr
        rw [hbt] at h
        dsimp only at h
        cases hwb : writeBack i ks ret arrays with
        | error e =>
          rw [hwb] at h
          exact Except.noConfusion h
        | ok arrays1 =>
          rw [hwb] at h
          dsimp only at h
          cases hloop : iterLoopTr bodyTr ks c rest arrays1 with
          | error e =>
            rw [hloop] at h
            exact Except.noConfusion h
          | ok pr2 =>
            obtain ⟨arrays'', t'⟩ := pr2
            rw [hloop] at h
            dsimp only at h
            injection h with h'
            injection h' with h1 h2
            rw [← h2, ih arrays1 arrays'' t' hloop, hbody clip ret t hbt]
            simp

/-- C4: for every IterateMultiStage whose run succeeds on a clipboard
whose iterated sequences have common length l, the recorded (iteration
index, child position) trace is exactly index-major: every child runs in
declared order against index 0, then every child against index 1, and so
on — never one stage across all indices before the next stage. -/
theorem C4_interleaving : ∀ (name : String) (ks : List Key)
    (stages : List Stage) (ownReq ownProv : List Key) (c : Clipboard)
    (arrays0 : Dict (List Value)) (l : Nat) (c' : Clipboard)
    (tr : List (Nat × Nat)),
    gatherIterate ks c = .ok (arrays0, some l) →
    iterMultiStageRunTr name ks stages ownReq ownProv c = .ok (c', tr) →
    tr = List.flatten ((List.range l).map
      (fun i => (List.range stages.length).map (fun j => (i, j)))) := by
  intro name ks stages ownReq ownProv c arrays0 l c' tr hg hrun
  simp only [iterMultiStageRunTr] at hrun
  by_cases hck : checkKeys (deriveContract stages ownReq ownProv).1 c = true
  · rw [if_pos hck, hg] at hrun
    dsimp only at hrun
    cases hloop : iterLoopTr
        (fun clip =>
          if checkKeys (deriveContract stages ownReq ownProv).1 clip then
            match multiRunFromTr name stages clip 0 with
            | Except.error e => Except.error e
            | Except.ok (c'', t) => Except.ok (some c'', t)
          else Except.error (Err.requireNotMet name))
        ks c (List.range l) arrays0 with
    | error e =>
      rw [hloop] at hrun
      exact Except.noConfusion hrun
    | ok pr =>
      obtain ⟨arrays', tr'⟩ := pr
      rw [hloop] at hrun
      dsimp only at hrun
      have htr : tr = tr' := by
        by_cases hprov : checkKeys (deriveContract stages ownReq ownProv).2
            (putBack ks arrays' c) = true
        · rw [if_pos hprov] at hrun
          injection hrun with h'
          injection h' with h1 h2
          exact h2.symm
        · rw [if_neg hprov] at hrun
          exact Except.noConfusion hrun
      rw [htr]
      apply iterLoopTr_trace _ ks c (List.range stages.length) _
        (List.range l) arrays0 arrays' tr' hloop
      intro clip r t hbt
      by_cases hck' : checkKeys (deriveContract stages ownReq ownProv).1 clip = true
      · rw [if_pos hck'] at hbt
        cases hrec : multiRunFromTr name stages clip 0 with
        | error e =>
          rw [hrec] at hbt
          exact Except.noConfusion hbt
        | ok pr2 =>
          obtain ⟨c'', t''⟩ := pr2
          rw [hrec] at hbt
          dsimp only at hbt
          injection hbt with h'
          injection h' with h1 h2
          rw [← h2, multiRunFromTr_trace name stages clip 0 c'' t'' hrec,
            List.range_eq_range']
      · rw [if_neg hck'] at hbt
        exact Except.noConfusion hbt
  · rw [if_neg hck] at hrun
    exact Except.noConfusion hrun

/-- C4 (witness): two echo children over one length-2 sequence are
invoked in the order (index 0, child 0), (0, 1), (1, 0), (1, 1) — each
index processed through every child before the next index begins. -/
theorem C4_interleaving_witness :
    iterMultiStageRunTr "i4" ["a"] [e4a, e4b] [] []
        [("a", .seq [.nat 0, .nat 1])]
      = .ok ([("a", .seq [.nat 0, .nat 1])], [(0, 0), (0, 1), (1, 0), (1, 1)]) ∧
    ([((0 : Nat), (0 : Nat)), (0, 1), (1, 0), (1, 1)]
      = List.flatten ((List.range 2).map
          (fun i => (List.range 2).map (fun j => (i, j))))) := by
  constructor
  · rfl
  · exact C4_interleaving "i4" ["a"] [e4a, e4b] [] []
      [("a", .seq [.nat 0, .nat 1])] [("a", [.nat 0, .nat 1])] 2
      [("a", .seq [.nat 0, .nat 1])] [(0, 0), (0, 1), (1, 0), (1, 1)] rfl rfl

end Pipette
